import Mathlib

/-!
Verification of the Portfolio Ledger & Performance Analytics Engine:
a shallow embedding of `FinanceApp/database.py` (the SQLite-backed position
ledger) and of the analytics portion of `main.py` (the dashboard report
computation), together with theorems settling the specified properties.

Monetary amounts and prices are modelled as rationals, dates as integers,
and the `portfolio` table as a list of rows keyed by ticker.
-/

namespace Portfolio

/-- A row of the `portfolio` table: `ticker TEXT PRIMARY KEY`,
`quantity INTEGER NOT NULL`, `avg_price REAL NOT NULL`. -/
structure Pos where
  ticker : String
  quantity : Int
  avg_price : Rat
deriving DecidableEq

/-- The `portfolio` table contents, in row order. -/
abbrev Ledger := List Pos

/-- `SELECT ... FROM portfolio WHERE ticker = ?` followed by `fetchone()`:
the first row with the given ticker, if any. -/
def lookupPos (db : Ledger) (t : String) : Option Pos :=
  db.find? (fun p => p.ticker == t)

/-- `Database.save_item`: insert a fresh row for an unseen ticker, otherwise
merge into the existing row with the quantity-weighted average price
`(old_qty*old_price + quantity*price) / (old_qty + quantity)`. -/
def save_item (db : Ledger) (t : String) (q : Int) (price : Rat) : Ledger :=
  match lookupPos db t with
  | none => db ++ [⟨t, q, price⟩]
  | some p₀ =>
      let total_qty := p₀.quantity + q
      let new_avg := ((p₀.quantity : Rat) * p₀.avg_price + (q : Rat) * price) / (total_qty : Rat)
      db.map (fun p => if p.ticker == t then ⟨t, total_qty, new_avg⟩ else p)

/-- `Database.remove_or_reduce_item`: with `quantity = None` delete the row;
otherwise, when the ticker is present, subtract the quantity, deleting the
row when the new quantity is `≤ 0` and updating only the quantity column
otherwise.  An absent ticker leaves the table untouched. -/
def remove_or_reduce_item (db : Ledger) (t : String) (q : Option Int) : Ledger :=
  match q with
  | none => db.filter (fun p => p.ticker != t)
  | some qty =>
      match lookupPos db t with
      | none => db
      | some p₀ =>
          let new_qty := p₀.quantity - qty
          if new_qty ≤ 0 then db.filter (fun p => p.ticker != t)
          else db.map (fun p => if p.ticker == t then ⟨p.ticker, new_qty, p.avg_price⟩ else p)

/-- Python `str.strip()`: drop leading and trailing whitespace. -/
def pyStrip (s : String) : String :=
  ⟨((s.data.dropWhile Char.isWhitespace).reverse.dropWhile Char.isWhitespace).reverse⟩

/-- Python `str.upper()` on the character list. -/
def pyUpper (s : String) : String :=
  ⟨s.data.map Char.toUpper⟩

/-- Python `str.isdigit()`: nonempty and all characters are digits. -/
def pyIsDigit (s : String) : Bool :=
  !s.data.isEmpty && s.data.all Char.isDigit

/-- Python `int(...)` on a digit string. -/
def pyInt (s : String) : Int :=
  (s.data.foldl (fun n c => n * 10 + (c.toNat - 48)) 0 : Nat)

/-- `PortfolioPage.add_ticker`: validate the three entry fields, then call
`save_item`.  `pyFloat` models Python `float(...)`, returning `none` where the
Python call would raise `ValueError` (so `is_float` is `(pyFloat s).isSome`).
The error strings are the message-box titles shown by the page. -/
def add_ticker (pyFloat : String → Option Rat) (db : Ledger)
    (tickerRaw qtyRaw priceRaw : String) : Except String Ledger :=
  let newTicker := pyUpper (pyStrip tickerRaw)
  let qtyStr := pyStrip qtyRaw
  let priceStr := pyStrip priceRaw
  if newTicker = "" ∨ qtyStr = "" ∨ priceStr = "" then .error "Eingabe unvollständig"
  else if ¬ pyIsDigit qtyStr ∨ (pyFloat priceStr).isNone then .error "Ungültige Eingabe"
  else
    let newQty := pyInt qtyStr
    let newPrice := (pyFloat priceStr).getD 0
    if newQty ≤ 0 ∨ newPrice ≤ 0 then .error "Ungültige Werte"
    else .ok (save_item db newTicker newQty newPrice)

/-- `PortfolioPage.reduce_quantity`: validate the two entry fields, then call
`remove_or_reduce_item` with the parsed quantity. -/
def reduce_quantity (db : Ledger) (tickerRaw qtyRaw : String) : Except String Ledger :=
  let t := pyUpper (pyStrip tickerRaw)
  let qtyStr := pyStrip qtyRaw
  if t = "" then .error "Fehlender Ticker"
  else if ¬ pyIsDigit qtyStr then .error "Ungültige Eingabe"
  else
    let q := pyInt qtyStr
    if q ≤ 0 then .error "Ungültige Werte"
    else .ok (remove_or_reduce_item db t (some q))

/-- One row of the concatenated dashboard DataFrame: Ticker, Date and
`TotalValue = Close * quantity`. -/
structure Row where
  ticker : String
  date : Int
  totalValue : Rat
deriving DecidableEq

/-- A fetched price history for one ticker: `(date, close)` points in
chronological order; `[]` models an empty/unavailable yfinance result. -/
abbrev Series := List (Int × Rat)

/-- `fetch_stock_history` after a successful fetch: one row per price point
with `TotalValue = Close * quantity`. -/
def history_rows (t : String) (qty : Int) (s : Series) : List Row :=
  s.map (fun dc => ⟨t, dc.1, dc.2 * (qty : Rat)⟩)

/-- `DashboardPage.get_portfolio_data`: fetch each position's history,
skip tickers whose frame is empty, and concatenate the rest. -/
def get_portfolio_data (db : Ledger) (fetch : String → Series) : List Row :=
  (db.map (fun p =>
    let s := fetch p.ticker
    if s.isEmpty then [] else history_rows p.ticker p.quantity s)).flatten

/-- `data.groupby("Date")["TotalValue"].sum()` evaluated at one date. -/
def daily_total (data : List Row) (d : Int) : Rat :=
  ((data.filter (fun r => r.date == d)).map (fun r => r.totalValue)).sum

/-- Insert one element into a list that is sorted for `le`. -/
def insertLe {α : Type} (le : α → α → Bool) (a : α) : List α → List α
  | [] => [a]
  | b :: bs => if le a b then a :: b :: bs else b :: insertLe le a bs

/-- Insertion sort by the boolean comparison `le` (a stable sort, as used to
model the sorted iteration order of pandas groupby keys and `sort_values`). -/
def sortLe {α : Type} (le : α → α → Bool) : List α → List α
  | [] => []
  | a :: as => insertLe le a (sortLe le as)

/-- Lexicographic comparison of codepoint lists, Python's string order. -/
def codesLe : List Nat → List Nat → Bool
  | [], _ => true
  | _ :: _, [] => false
  | a :: as, b :: bs => if a < b then true else if b < a then false else codesLe as bs

/-- Python string `<=`: lexicographic on codepoints. -/
def strLe (a b : String) : Bool :=
  codesLe (a.data.map Char.toNat) (b.data.map Char.toNat)

/-- Strict version of the Python string order, as a proposition. -/
def strLt (a b : String) : Prop :=
  strLe a b = true ∧ a ≠ b

/-- The distinct dates of the data, ascending: the group keys of
`groupby("Date")` after `sort_index()`. -/
def sorted_dates (data : List Row) : List Int :=
  sortLe (fun a b => decide (a ≤ b)) ((data.map (fun r => r.date)).dedup)

/-- `total_values`: the date-indexed aggregate value series
`data.groupby("Date")["TotalValue"].sum().sort_index()`. -/
def total_values (data : List Row) : List Rat :=
  (sorted_dates data).map (daily_total data)

/-- `daily_change` (Tagesveränderung): difference of the last two aggregate
values, `0` with fewer than two dates. -/
def daily_change (data : List Row) : Rat :=
  let tv := total_values data
  if 2 ≤ tv.length then tv.getLastD 0 - tv.getD (tv.length - 2) 0 else 0

/-- `daily_percent`: the daily change as a percentage of the second-to-last
value, `0` with fewer than two dates or a zero baseline. -/
def daily_percent (data : List Row) : Rat :=
  let tv := total_values data
  if 2 ≤ tv.length then
    if tv.getD (tv.length - 2) 0 ≠ 0 then
      (daily_change data / tv.getD (tv.length - 2) 0) * 100
    else 0
  else 0

/-- `current_total`: the most recent aggregate value, `0` for an empty series. -/
def current_total (data : List Row) : Rat :=
  (total_values data).getLastD 0

/-- `period_return`: percent change from the first to the last aggregate
value, `0` with fewer than two dates or a zero initial value. -/
def period_return (data : List Row) : Rat :=
  let tv := total_values data
  if 2 ≤ tv.length then
    let initial := tv.getD 0 0
    if initial ≠ 0 then ((current_total data - initial) / initial) * 100 else 0
  else 0

/-- The rows of one `groupby("Ticker")` group, in frame order. -/
def ticker_rows (data : List Row) (t : String) : List Row :=
  data.filter (fun r => r.ticker == t)

/-- `group.sort_values("Date")`. -/
def rows_by_date (l : List Row) : List Row :=
  sortLe (fun r s => decide (r.date ≤ s.date)) l

/-- Per-ticker performance percent, from the first to the last `TotalValue`
of that ticker's own date-sorted rows; `0` when the start value is `0`. -/
def ticker_pct (data : List Row) (t : String) : Rat :=
  let g := (rows_by_date (ticker_rows data t)).map (fun r => r.totalValue)
  let start_val := g.getD 0 0
  let end_val := g.getLastD 0
  if start_val ≠ 0 then ((end_val - start_val) / start_val) * 100 else 0

/-- The group keys of `data.groupby("Ticker")`: distinct tickers in
ascending string order (pandas sorts group keys). -/
def tickers_sorted (data : List Row) : List String :=
  sortLe strLe ((data.map (fun r => r.ticker)).dedup)

/-- Python `max(..., key=...)` over an iteration: the first element whose key
strictly exceeds the running best replaces it, so the first maximum wins. -/
def max_fold (f : String → Rat) (init : String × Rat) (L : List String) : String × Rat :=
  L.foldl (fun best u => if best.2 < f u then (u, f u) else best) init

/-- Python `min(..., key=...)`: the first minimum wins. -/
def min_fold (f : String → Rat) (init : String × Rat) (L : List String) : String × Rat :=
  L.foldl (fun best u => if f u < best.2 then (u, f u) else best) init

/-- Top performer: argmax of `ticker_pct` over the grouped tickers, with the
sentinel `("n/a", 0)` when there are no groups. -/
def top_performer (data : List Row) : String × Rat :=
  match tickers_sorted data with
  | [] => ("n/a", 0)
  | t :: ts => max_fold (ticker_pct data) (t, ticker_pct data t) ts

/-- Flop performer: argmin of `ticker_pct`, same sentinel. -/
def flop_performer (data : List Row) : String × Rat :=
  match tickers_sorted data with
  | [] => ("n/a", 0)
  | t :: ts => min_fold (ticker_pct data) (t, ticker_pct data t) ts

/-- `composition = data.groupby("Ticker")["TotalValue"].last()` at one
ticker: the last TotalValue of that group in frame order. -/
def composition_last (data : List Row) (t : String) : Rat :=
  ((ticker_rows data t).map (fun r => r.totalValue)).getLastD 0

/-- `composition.sum()`: current market value of the whole portfolio. -/
def portfolio_value (data : List Row) : Rat :=
  ((tickers_sorted data).map (composition_last data)).sum

/-- `portfolio_cost`: total cost basis `Σ quantity * avg_price` over every
position of the ledger. -/
def portfolio_cost (db : Ledger) : Rat :=
  (db.map (fun p => (p.quantity : Rat) * p.avg_price)).sum

/-- `total_return_since_purchase`: percent return of the current market value
over the cost basis, guarded to `0` unless the cost basis is positive. -/
def since_purchase_return (db : Ledger) (data : List Row) : Rat :=
  if 0 < portfolio_cost db then
    ((portfolio_value data - portfolio_cost db) / portfolio_cost db) * 100
  else 0

/-- The market value one position contributes on one date: its quantity times
its own series' close on that date, `0` when the series lacks the date. -/
def position_day_value (fetch : String → Series) (p : Pos) (d : Int) : Rat :=
  match (fetch p.ticker).find? (fun dc => dc.1 == d) with
  | some dc => dc.2 * (p.quantity : Rat)
  | none => 0

/-- A sequence of buys `(quantity, price)` of one ticker, applied in order
through `Database.save_item`. -/
def apply_adds (t : String) (ops : List (Int × Rat)) (db : Ledger) : Ledger :=
  ops.foldl (fun d qp => save_item d t qp.1 qp.2) db

/-- Total quantity bought over a sequence of buys. -/
def qty_sum (ops : List (Int × Rat)) : Int :=
  (ops.map (fun qp => qp.1)).sum

/-- Total money spent over a sequence of buys, `Σ quantity_i * price_i`. -/
def cost_sum (ops : List (Int × Rat)) : Rat :=
  (ops.map (fun qp => (qp.1 : Rat) * qp.2)).sum

/-- Looking up a ticker absent from `db` finds a freshly appended row for it. -/
theorem lookupPos_append_single_of_none (db : Ledger) (t : String) (x : Pos)
    (h : lookupPos db t = none) (hx : x.ticker = t) :
    lookupPos (db ++ [x]) t = some x := by
  induction db with
  | nil =>
      unfold lookupPos
      rw [List.nil_append, List.find?_cons_of_pos _ (by simpa using hx)]
  | cons p rest ih =>
      unfold lookupPos at h ih ⊢
      by_cases hpt : p.ticker = t
      · rw [List.find?_cons_of_pos _ (by simpa using hpt)] at h
        exact absurd h (by simp)
      · rw [List.find?_cons_of_neg _ (by simpa using hpt)] at h
        rw [List.cons_append, List.find?_cons_of_neg _ (by simpa using hpt)]
        exact ih h

/-- Appending a row for a different ticker does not change a lookup. -/
theorem lookupPos_append_single_other (db : Ledger) (t' : String) (x : Pos)
    (hx : x.ticker ≠ t') :
    lookupPos (db ++ [x]) t' = lookupPos db t' := by
  induction db with
  | nil =>
      unfold lookupPos
      rw [List.nil_append, List.find?_cons_of_neg _ (by simpa using hx)]
  | cons p rest ih =>
      unfold lookupPos at ih ⊢
      by_cases hpt : p.ticker = t'
      · rw [List.cons_append, List.find?_cons_of_pos _ (by simpa using hpt),
          List.find?_cons_of_pos _ (by simpa using hpt)]
      · rw [List.cons_append, List.find?_cons_of_neg _ (by simpa using hpt),
          List.find?_cons_of_neg _ (by simpa using hpt)]
        exact ih

/-- After deleting every row of ticker `t`, looking up `t` finds nothing. -/
theorem lookupPos_filter_ne_self (db : Ledger) (t : String) :
    lookupPos (db.filter (fun p => p.ticker != t)) t = none := by
  induction db with
  | nil => rfl
  | cons p rest ih =>
      unfold lookupPos at ih ⊢
      by_cases hpt : p.ticker = t
      · rw [List.filter_cons_of_neg (by simpa using hpt)]
        exact ih
      · rw [List.filter_cons_of_pos (by simpa using hpt),
          List.find?_cons_of_neg _ (by simpa using hpt)]
        exact ih

/-- Deleting the rows of ticker `t` does not change the lookup of `t' ≠ t`. -/
theorem lookupPos_filter_ne_other (db : Ledger) (t t' : String) (h : t' ≠ t) :
    lookupPos (db.filter (fun p => p.ticker != t)) t' = lookupPos db t' := by
  induction db with
  | nil => rfl
  | cons p rest ih =>
      unfold lookupPos at ih ⊢
      by_cases hpt : p.ticker = t
      · have hpt' : p.ticker ≠ t' := fun hc => h (hpt ▸ hc ▸ rfl)
        rw [List.filter_cons_of_neg (by simpa using hpt),
          List.find?_cons_of_neg _ (by simpa using hpt')]
        exact ih
      · by_cases hp2 : p.ticker = t'
        · rw [List.filter_cons_of_pos (by simpa using hpt),
            List.find?_cons_of_pos _ (by simpa using hp2),
            List.find?_cons_of_pos _ (by simpa using hp2)]
        · rw [List.filter_cons_of_pos (by simpa using hpt),
            List.find?_cons_of_neg _ (by simpa using hp2),
            List.find?_cons_of_neg _ (by simpa using hp2)]
          exact ih

/-- Updating in place every row of ticker `t` maps the lookup of `t`,
provided the update keeps the ticker. -/
theorem lookupPos_map_ite (db : Ledger) (t : String) (g : Pos → Pos)
    (hg : ∀ p : Pos, p.ticker = t → (g p).ticker = t) :
    lookupPos (db.map (fun p => if p.ticker == t then g p else p)) t
      = (lookupPos db t).map g := by
  induction db with
  | nil => rfl
  | cons p rest ih =>
      unfold lookupPos at ih ⊢
      rw [List.map_cons]
      by_cases hpt : p.ticker = t
      · rw [if_pos (by simpa using hpt),
          List.find?_cons_of_pos _ (by simpa using hg p hpt),
          List.find?_cons_of_pos _ (by simpa using hpt)]
        rfl
      · rw [if_neg (by simpa using hpt),
          List.find?_cons_of_neg _ (by simpa using hpt),
          List.find?_cons_of_neg _ (by simpa using hpt)]
        exact ih

/-- Updating in place the rows of ticker `t` does not change the lookup of
`t' ≠ t`, provided the update keeps the ticker. -/
theorem lookupPos_map_ite_other (db : Ledger) (t t' : String) (g : Pos → Pos)
    (h : t' ≠ t) (hg : ∀ p : Pos, p.ticker = t → (g p).ticker = t) :
    lookupPos (db.map (fun p => if p.ticker == t then g p else p)) t'
      = lookupPos db t' := by
  induction db with
  | nil => rfl
  | cons p rest ih =>
      unfold lookupPos at ih ⊢
      rw [List.map_cons]
      by_cases hpt : p.ticker = t
      · have hgp : (g p).ticker ≠ t' := fun hc => h ((hg p hpt) ▸ hc ▸ rfl)
        have hpt' : p.ticker ≠ t' := fun hc => h (hpt ▸ hc ▸ rfl)
        rw [if_pos (by simpa using hpt),
          List.find?_cons_of_neg _ (by simpa using hgp),
          List.find?_cons_of_neg _ (by simpa using hpt')]
        exact ih
      · by_cases hp2 : p.ticker = t'
        · rw [if_neg (by simpa using hpt),
            List.find?_cons_of_pos _ (by simpa using hp2),
            List.find?_cons_of_pos _ (by simpa using hp2)]
        · rw [if_neg (by simpa using hpt),
            List.find?_cons_of_neg _ (by simpa using hp2),
            List.find?_cons_of_neg _ (by simpa using hp2)]
          exact ih

/-- On an absent ticker, `save_item` takes its INSERT branch. -/
theorem save_item_insert (db : Ledger) (t : String) (q : Int) (price : Rat)
    (h : lookupPos db t = none) :
    save_item db t q price = db ++ [⟨t, q, price⟩] := by
  unfold save_item
  rw [h]

/-- Looking up the ticker just inserted by `save_item` finds the new row. -/
theorem lookupPos_save_item_of_none (db : Ledger) (t : String) (q : Int) (price : Rat)
    (h : lookupPos db t = none) :
    lookupPos (save_item db t q price) t = some ⟨t, q, price⟩ := by
  rw [save_item_insert db t q price h]
  exact lookupPos_append_single_of_none db t _ h rfl

/-- On a present ticker, `save_item` replaces the row by the merged one with
summed quantity and quantity-weighted average price. -/
theorem lookupPos_save_item_of_some (db : Ledger) (t : String) (q : Int) (price : Rat)
    (p₀ : Pos) (h : lookupPos db t = some p₀) :
    lookupPos (save_item db t q price) t
      = some ⟨t, p₀.quantity + q,
          ((p₀.quantity : Rat) * p₀.avg_price + (q : Rat) * price)
            / ((p₀.quantity + q : Int) : Rat)⟩ := by
  unfold save_item
  rw [h]
  rw [lookupPos_map_ite db t _ (fun p _ => rfl), h]
  rfl

/-- On a present ticker with non-positive resulting quantity,
`remove_or_reduce_item` deletes the rows of that ticker. -/
theorem remove_or_reduce_delete (db : Ledger) (t : String) (qn : Int) (p₀ : Pos)
    (h : lookupPos db t = some p₀) (hle : p₀.quantity - qn ≤ 0) :
    remove_or_reduce_item db t (some qn) = db.filter (fun p => p.ticker != t) := by
  unfold remove_or_reduce_item
  rw [h]
  exact if_pos hle

/-- On a present ticker with positive resulting quantity,
`remove_or_reduce_item` updates only the quantity column. -/
theorem lookupPos_remove_or_reduce_update (db : Ledger) (t : String) (qn : Int) (p₀ : Pos)
    (h : lookupPos db t = some p₀) (hgt : ¬ p₀.quantity - qn ≤ 0) :
    lookupPos (remove_or_reduce_item db t (some qn)) t
      = some ⟨p₀.ticker, p₀.quantity - qn, p₀.avg_price⟩ := by
  unfold remove_or_reduce_item
  rw [h]
  show lookupPos (if p₀.quantity - qn ≤ 0 then db.filter (fun p => p.ticker != t)
      else db.map (fun p =>
        if p.ticker == t then ⟨p.ticker, p₀.quantity - qn, p.avg_price⟩ else p)) t = _
  rw [if_neg hgt,
    lookupPos_map_ite db t (fun p => ⟨p.ticker, p₀.quantity - qn, p.avg_price⟩)
      (fun p hp => hp), h]
  rfl

/-- Folding a list of entirely positive buys through `save_item`, starting
from a position already present with positive quantity, yields the summed
quantity and the grand weighted average of the old basis and all buys. -/
theorem apply_adds_lookup (t : String) :
    ∀ (ops : List (Int × Rat)) (db : Ledger) (p₀ : Pos),
      lookupPos db t = some p₀ → p₀.ticker = t → 0 < p₀.quantity →
      (∀ qp ∈ ops, 0 < qp.1) →
      lookupPos (apply_adds t ops db) t
        = some ⟨t, p₀.quantity + qty_sum ops,
            ((p₀.quantity : Rat) * p₀.avg_price + cost_sum ops)
              / ((p₀.quantity : Rat) + (qty_sum ops : Rat))⟩ := by
  intro ops
  induction ops with
  | nil =>
      intro db p₀ h ht hq _
      have hq0 : ((p₀.quantity : Rat)) ≠ 0 := by
        exact_mod_cast (Int.ne_of_gt hq)
      show lookupPos db t = _
      rw [h]
      congr 1
      cases p₀ with
      | mk pt pq pa =>
          simp only [Pos.mk.injEq, qty_sum, cost_sum, List.map_nil, List.sum_nil] at ht hq0 ⊢
          refine ⟨ht, by omega, ?_⟩
          push_cast
          field_simp
  | cons qp rest ih =>
      intro db p₀ h ht hq hpos
      have hq1 : 0 < qp.1 := hpos qp (List.mem_cons_self qp rest)
      have hq' : 0 < p₀.quantity + qp.1 := by omega
      have hstep := lookupPos_save_item_of_some db t qp.1 qp.2 p₀ h
      have ihstep := ih (save_item db t qp.1 qp.2)
        ⟨t, p₀.quantity + qp.1,
          ((p₀.quantity : Rat) * p₀.avg_price + (qp.1 : Rat) * qp.2)
            / ((p₀.quantity + qp.1 : Int) : Rat)⟩
        hstep rfl hq' (fun x hx => hpos x (List.mem_cons_of_mem _ hx))
      show lookupPos (apply_adds t rest (save_item db t qp.1 qp.2)) t = _
      rw [ihstep]
      have hden : ((p₀.quantity : Rat) + (qp.1 : Rat)) ≠ 0 := by
        have hc : (0 : Rat) < (p₀.quantity : Rat) + (qp.1 : Rat) := by
          exact_mod_cast hq'
        linarith
      congr 1
      simp only [Pos.mk.injEq, qty_sum, cost_sum, List.map_cons, List.sum_cons]
      refine ⟨by trivial, by omega, ?_⟩
      push_cast
      field_simp
      ring

/-- `save_item` cannot change the lookup of any other ticker. -/
theorem lookupPos_save_item_other (db : Ledger) (t : String) (q : Int) (price : Rat)
    (t' : String) (h : t' ≠ t) :
    lookupPos (save_item db t q price) t' = lookupPos db t' := by
  unfold save_item
  cases hl : lookupPos db t with
  | none =>
      exact lookupPos_append_single_other db t' ⟨t, q, price⟩ (fun hc => h hc.symm)
  | some p₀ =>
      exact lookupPos_map_ite_other db t t' _ h (fun p _ => rfl)

/-- `remove_or_reduce_item` cannot change the lookup of any other ticker. -/
theorem lookupPos_remove_or_reduce_other (db : Ledger) (t : String) (qopt : Option Int)
    (t' : String) (h : t' ≠ t) :
    lookupPos (remove_or_reduce_item db t qopt) t' = lookupPos db t' := by
  unfold remove_or_reduce_item
  cases qopt with
  | none => exact lookupPos_filter_ne_other db t t' h
  | some qn =>
      cases hl : lookupPos db t with
      | none => rfl
      | some p₀ =>
          show lookupPos (if p₀.quantity - qn ≤ 0 then db.filter (fun p => p.ticker != t)
              else db.map (fun p =>
                if p.ticker == t then ⟨p.ticker, p₀.quantity - qn, p.avg_price⟩ else p)) t'
            = lookupPos db t'
          by_cases hle : p₀.quantity - qn ≤ 0
          · rw [if_pos hle]
            exact lookupPos_filter_ne_other db t t' h
          · rw [if_neg hle]
            exact lookupPos_map_ite_other db t t'
              (fun p => ⟨p.ticker, p₀.quantity - qn, p.avg_price⟩) h (fun p hp => hp)

/-- Claim C2: for an existing position of quantity `old_q` and a reduce by `q > 0`:
when `old_q - q ≤ 0` the position is deleted entirely (no row of that ticker
survives), otherwise the quantity becomes `old_q - q` and the average cost is
exactly unchanged. -/
theorem claim2 (db : Ledger) (t : String) (qn : Int) (p₀ : Pos)
    (h : lookupPos db t = some p₀) (_hq : 0 < qn) :
    (p₀.quantity - qn ≤ 0 →
      lookupPos (remove_or_reduce_item db t (some qn)) t = none ∧
      ∀ p ∈ remove_or_reduce_item db t (some qn), p.ticker ≠ t) ∧
    (0 < p₀.quantity - qn →
      lookupPos (remove_or_reduce_item db t (some qn)) t
        = some ⟨p₀.ticker, p₀.quantity - qn, p₀.avg_price⟩) := by
  constructor
  · intro hle
    rw [remove_or_reduce_delete db t qn p₀ h hle]
    refine ⟨lookupPos_filter_ne_self db t, ?_⟩
    intro p hp
    have := List.of_mem_filter hp
    simpa using this
  · intro hgt
    exact lookupPos_remove_or_reduce_update db t qn p₀ h (by omega)

/-- Witness for C2 at a concrete ledger: reducing AAPL (10 @ 100) by 4 keeps
average cost 100 at quantity 6; the hypotheses are discharged by evaluation. -/
theorem claim2_witness :
    lookupPos [⟨"AAPL", 10, 100⟩] "AAPL" = some ⟨"AAPL", 10, 100⟩ ∧
    (0 : Int) < 4 ∧
    lookupPos (remove_or_reduce_item [⟨"AAPL", 10, 100⟩] "AAPL" (some 4)) "AAPL"
      = some ⟨"AAPL", 6, 100⟩ := by
  have h : lookupPos [⟨"AAPL", 10, 100⟩] "AAPL" = some ⟨"AAPL", 10, 100⟩ := by
    simp [lookupPos, List.find?]
  refine ⟨h, by norm_num, ?_⟩
  have := (claim2 [⟨"AAPL", 10, 100⟩] "AAPL" 4 ⟨"AAPL", 10, 100⟩ h (by norm_num)).2
    (by norm_num)
  simpa using this

/-- Claim C10: mutations of ticker `t` leave every other ticker's position — its
quantity and average price — unchanged, for both `save_item` and
`remove_or_reduce_item` (including full deletion). -/
theorem claim10 (db : Ledger) (t : String) (q : Int) (price : Rat)
    (qopt : Option Int) (t' : String) (h : t' ≠ t) :
    lookupPos (save_item db t q price) t' = lookupPos db t' ∧
    lookupPos (remove_or_reduce_item db t qopt) t' = lookupPos db t' :=
  ⟨lookupPos_save_item_other db t q price t' h,
   lookupPos_remove_or_reduce_other db t qopt t' h⟩

/-- Witness for C10: adding MSFT and reducing MSFT both leave the AAPL
position untouched in a concrete two-ticker ledger. -/
theorem claim10_witness :
    ("AAPL" : String) ≠ "MSFT" ∧
    lookupPos (save_item [⟨"AAPL", 10, 100⟩] "MSFT" 5 50) "AAPL"
      = lookupPos [⟨"AAPL", 10, 100⟩] "AAPL" ∧
    lookupPos (remove_or_reduce_item [⟨"AAPL", 10, 100⟩] "MSFT" (some 2)) "AAPL"
      = lookupPos [⟨"AAPL", 10, 100⟩] "AAPL" := by
  have h := claim10 [⟨"AAPL", 10, 100⟩] "MSFT" 5 50 (some 2) "AAPL" (by simp)
  exact ⟨by simp, h.1, h.2⟩

/-- Claim C3 counterexample: reducing a ticker that is absent from the ledger does
not fail at all — the UI reduce succeeds and returns the ledger unchanged
(`remove_or_reduce_item` silently no-ops on a missing row). -/
theorem claim3_counterexample :
    lookupPos [⟨"AAPL", 10, 100⟩] "MSFT" = none ∧
    reduce_quantity [⟨"AAPL", 10, 100⟩] "MSFT" "1" = .ok [⟨"AAPL", 10, 100⟩] := by
  constructor
  · simp [lookupPos, List.find?]
  · simp [reduce_quantity, remove_or_reduce_item, lookupPos, pyStrip, pyUpper, pyIsDigit,
      pyInt, List.find?]

/-- Claim C3 amended: for a well-formed reduce request (non-empty ticker, positive
digit quantity) whose normalized ticker is absent from the ledger, the
operation succeeds silently and the ledger is returned unchanged — no
NotFound error exists in the code. -/
theorem claim3 (db : Ledger) (tickerRaw qtyRaw : String)
    (ht : pyUpper (pyStrip tickerRaw) ≠ "")
    (hd : pyIsDigit (pyStrip qtyRaw) = true)
    (hq : 0 < pyInt (pyStrip qtyRaw))
    (habs : lookupPos db (pyUpper (pyStrip tickerRaw)) = none) :
    reduce_quantity db tickerRaw qtyRaw = .ok db := by
  unfold reduce_quantity
  rw [if_neg ht, if_neg (by simp [hd]), if_neg (by omega)]
  unfold remove_or_reduce_item
  rw [habs]

/-- Witness for C3 amended: reducing the absent ticker MSFT by 1 returns the
one-row AAPL ledger unchanged. -/
theorem claim3_witness :
    pyUpper (pyStrip "MSFT") ≠ "" ∧
    lookupPos [⟨"AAPL", 10, 100⟩] (pyUpper (pyStrip "MSFT")) = none ∧
    reduce_quantity [⟨"AAPL", 10, 100⟩] "MSFT" "1" = .ok [⟨"AAPL", 10, 100⟩] := by
  refine ⟨by simp [pyStrip, pyUpper], ?_, ?_⟩
  · simp [lookupPos, List.find?, pyStrip, pyUpper]
  · exact claim3 [⟨"AAPL", 10, 100⟩] "MSFT" "1"
      (by simp [pyStrip, pyUpper])
      (by simp [pyStrip, pyIsDigit])
      (by simp [pyStrip, pyInt])
      (by simp [lookupPos, List.find?, pyStrip, pyUpper])

/-- Claim C1 counterexample: with an intervening reduce that does not zero the
position, the final average cost is NOT `Σ(qty*price)/Σqty` over the adds.
After add(AAPL,10,100), reduce(AAPL,5), add(AAPL,10,200) the stored average
is `(5*100 + 10*200)/15 = 500/3 ≈ 166.67`, while the adds-only formula gives
`(10*100 + 10*200)/(10+10) = 150`. -/
theorem claim1_counterexample :
    lookupPos (save_item (remove_or_reduce_item (save_item [] "AAPL" 10 100) "AAPL" (some 5))
        "AAPL" 10 200) "AAPL"
      = some ⟨"AAPL", 15, 500 / 3⟩ ∧
    ((500 : Rat) / 3) ≠ ((10 * 100 + 10 * 200 : Rat) / (10 + 10)) := by
  constructor
  · simp [save_item, remove_or_reduce_item, lookupPos, List.find?]
    norm_num
  · norm_num

/-- Claim C1 amended: for a sequence consisting solely of `add` operations on one
ticker (no intervening reduce at all) with positive quantities, starting from
a ledger not containing the ticker, the final position carries quantity
`Σ qty_i` and average cost `Σ(qty_i * price_i) / Σ qty_i`; in particular the
two adds (10 @ 100) then (10 @ 200) yield quantity 20 at average cost 150. -/
theorem claim1 (t : String) (ops : List (Int × Rat)) (db : Ledger)
    (habs : lookupPos db t = none) (hpos : ∀ qp ∈ ops, 0 < qp.1) (hne : ops ≠ []) :
    lookupPos (apply_adds t ops db) t
      = some ⟨t, qty_sum ops, cost_sum ops / ((qty_sum ops : Int) : Rat)⟩ := by
  cases ops with
  | nil => exact absurd rfl hne
  | cons qp rest =>
      have hq1 : 0 < qp.1 := hpos qp (List.mem_cons_self qp rest)
      have hstep := lookupPos_save_item_of_none db t qp.1 qp.2 habs
      have h := apply_adds_lookup t rest (save_item db t qp.1 qp.2) ⟨t, qp.1, qp.2⟩
        hstep rfl hq1 (fun x hx => hpos x (List.mem_cons_of_mem _ hx))
      show lookupPos (apply_adds t rest (save_item db t qp.1 qp.2)) t = _
      rw [h]
      congr 1
      simp only [Pos.mk.injEq, qty_sum, cost_sum, List.map_cons, List.sum_cons]
      refine ⟨by trivial, by trivial, ?_⟩
      push_cast
      ring

/-- Witness for C1 amended, which is also the claim's worked example: the
adds-only sequence (10 @ 100) then (10 @ 200) on an empty ledger produces
quantity 20 at average cost 150. -/
theorem claim1_witness :
    lookupPos [] "AAPL" = none ∧
    lookupPos (apply_adds "AAPL" [(10, 100), (10, 200)] []) "AAPL"
      = some ⟨"AAPL", qty_sum [(10, 100), (10, 200)],
          cost_sum [(10, 100), (10, 200)] / ((qty_sum [(10, 100), (10, 200)] : Int) : Rat)⟩ ∧
    lookupPos (apply_adds "AAPL" [(10, 100), (10, 200)] []) "AAPL"
      = some ⟨"AAPL", 20, 150⟩ := by
  refine ⟨rfl, claim1 "AAPL" [(10, 100), (10, 200)] [] rfl ?_ (by simp), ?_⟩
  · intro qp hqp
    rcases List.mem_cons.mp hqp with h1 | hqp
    · rw [h1]
      norm_num
    rcases List.mem_cons.mp hqp with h2 | hqp
    · rw [h2]
      norm_num
    · simp at hqp
  · simp [apply_adds, save_item, lookupPos, List.find?]
    norm_num

/-- Claim C9: an add whose normalized ticker is empty, whose quantity is not a
positive digit-string integer, or whose price is empty, unparsable, or not
positive, fails with a validation error before touching the database, so no
ledger is produced. -/
theorem claim9 (pyFloat : String → Option Rat) (db : Ledger)
    (tickerRaw qtyRaw priceRaw : String)
    (h : pyUpper (pyStrip tickerRaw) = "" ∨
         ¬ (pyIsDigit (pyStrip qtyRaw) = true ∧ 0 < pyInt (pyStrip qtyRaw)) ∨
         pyStrip priceRaw = "" ∨
         ¬ ∃ x, pyFloat (pyStrip priceRaw) = some x ∧ 0 < x) :
    ∃ e, add_ticker pyFloat db tickerRaw qtyRaw priceRaw = .error e := by
  simp only [add_ticker]
  split
  · exact ⟨_, rfl⟩
  · split
    · exact ⟨_, rfl⟩
    · split
      · exact ⟨_, rfl⟩
      · exfalso
        rename_i hc1 hc2 hc3
        push_neg at hc1 hc2 hc3
        rcases h with h1 | h2 | h3 | h4
        · exact hc1.1 h1
        · refine h2 ⟨?_, ?_⟩
          · have := hc2.1
            simpa using this
          · have := hc3.1
            omega
        · exact hc1.2.2 h3
        · apply h4
          have hsome : ¬ (pyFloat (pyStrip priceRaw)).isNone := by
            simpa using hc2.2
          cases hf : pyFloat (pyStrip priceRaw) with
          | none => exact absurd (by rw [hf]; rfl) hsome
          | some x =>
              refine ⟨x, rfl, ?_⟩
              have := hc3.2
              rw [hf] at this
              simpa using this

/-- Witness for C9: quantity string "0" parses to 0, which is not positive,
so the concrete add is rejected with an error. -/
theorem claim9_witness :
    ¬ (pyIsDigit (pyStrip "0") = true ∧ 0 < pyInt (pyStrip "0")) ∧
    ∃ e, add_ticker (fun s => if s = "10" then some (10 : Rat) else none)
        [⟨"AAPL", 10, 100⟩] "aapl" "0" "10" = .error e := by
  have h2 : ¬ (pyIsDigit (pyStrip "0") = true ∧ 0 < pyInt (pyStrip "0")) := by
    intro hc
    have h0 : pyInt (pyStrip "0") = 0 := rfl
    omega
  exact ⟨h2, claim9 _ [⟨"AAPL", 10, 100⟩] "aapl" "0" "10" (Or.inr (Or.inl h2))⟩

/-- Claim C6: the since-purchase return is `(value - cost)/cost * 100` with
`cost = Σ quantity*avg_price` over all positions whenever that cost basis is
positive, and `0` (without dividing) otherwise — in particular on the empty
ledger. -/
theorem claim6 (db : Ledger) (data : List Row) :
    (0 < (db.map (fun p => (p.quantity : Rat) * p.avg_price)).sum →
      since_purchase_return db data
        = ((portfolio_value data - (db.map (fun p => (p.quantity : Rat) * p.avg_price)).sum)
            / (db.map (fun p => (p.quantity : Rat) * p.avg_price)).sum) * 100) ∧
    (¬ 0 < (db.map (fun p => (p.quantity : Rat) * p.avg_price)).sum →
      since_purchase_return db data = 0) ∧
    since_purchase_return [] data = 0 := by
  refine ⟨?_, ?_, ?_⟩
  · intro h
    unfold since_purchase_return
    rw [if_pos (show 0 < portfolio_cost db from h)]
    rfl
  · intro h
    unfold since_purchase_return
    rw [if_neg (show ¬ 0 < portfolio_cost db from h)]
  · simp [since_purchase_return, portfolio_cost]

/-- Witness for C6 at a concrete portfolio: cost basis 20, market value 30,
since-purchase return 50%. -/
theorem claim6_witness :
    (0 : Rat) < (([⟨"AAPL", 2, 10⟩] : Ledger).map
      (fun p => (p.quantity : Rat) * p.avg_price)).sum ∧
    since_purchase_return [⟨"AAPL", 2, 10⟩] [⟨"AAPL", 1, 30⟩]
      = ((portfolio_value [⟨"AAPL", 1, 30⟩]
          - (([⟨"AAPL", 2, 10⟩] : Ledger).map
              (fun p => (p.quantity : Rat) * p.avg_price)).sum)
          / (([⟨"AAPL", 2, 10⟩] : Ledger).map
              (fun p => (p.quantity : Rat) * p.avg_price)).sum) * 100 ∧
    since_purchase_return [⟨"AAPL", 2, 10⟩] [⟨"AAPL", 1, 30⟩] = 50 := by
  have h0 : (0 : Rat) < (([⟨"AAPL", 2, 10⟩] : Ledger).map
      (fun p => (p.quantity : Rat) * p.avg_price)).sum := by
    simp
  refine ⟨h0, (claim6 [⟨"AAPL", 2, 10⟩] [⟨"AAPL", 1, 30⟩]).1 h0, ?_⟩
  simp [since_purchase_return, portfolio_cost, portfolio_value, tickers_sorted,
    composition_last, ticker_rows, sortLe, insertLe, strLe, codesLe, List.dedup]
  norm_num

/-- Claim C5 counterexample: with aggregate values `[0, 5]` (the second-to-last
value is 0 and there are two dates), `daily_change` is `5`, not `0` as the
claim requires — only the percentage is zero-guarded in the code. -/
theorem claim5_counterexample :
    total_values (get_portfolio_data [⟨"A", 1, 1⟩] (fun _ => [(1, 0), (2, 5)])) = [0, 5] ∧
    daily_change (get_portfolio_data [⟨"A", 1, 1⟩] (fun _ => [(1, 0), (2, 5)])) = 5 ∧
    (5 : Rat) ≠ 0 := by
  have htv : total_values (get_portfolio_data [⟨"A", 1, 1⟩] (fun _ => [(1, 0), (2, 5)]))
      = [0, 5] := by
    simp [total_values, sorted_dates, daily_total, get_portfolio_data, history_rows,
      sortLe, insertLe, List.dedup]
  refine ⟨htv, ?_, by norm_num⟩
  rw [daily_change, htv]
  norm_num

/-- Claim C5 amended: `daily_change` is the difference of the last two date-sorted
aggregate values whenever at least two dates exist (0 otherwise, but NOT
zeroed when the baseline is 0); `daily_percent` and `period_return` are
additionally guarded to 0 when their baseline is 0, so no division by zero
ever occurs. -/
theorem claim5 (data : List Row) :
    ((total_values data).length < 2 →
      daily_change data = 0 ∧ daily_percent data = 0 ∧ period_return data = 0) ∧
    (2 ≤ (total_values data).length →
      daily_change data
        = (total_values data).getLastD 0
            - (total_values data).getD ((total_values data).length - 2) 0 ∧
      ((total_values data).getD ((total_values data).length - 2) 0 = 0 →
        daily_percent data = 0) ∧
      ((total_values data).getD ((total_values data).length - 2) 0 ≠ 0 →
        daily_percent data
          = (daily_change data
              / (total_values data).getD ((total_values data).length - 2) 0) * 100) ∧
      ((total_values data).getD 0 0 = 0 → period_return data = 0) ∧
      ((total_values data).getD 0 0 ≠ 0 →
        period_return data
          = ((current_total data - (total_values data).getD 0 0)
              / (total_values data).getD 0 0) * 100)) := by
  constructor
  · intro hlen
    have h2 : ¬ 2 ≤ (total_values data).length := by omega
    refine ⟨?_, ?_, ?_⟩
    · simp only [daily_change]
      rw [if_neg h2]
    · simp only [daily_percent]
      rw [if_neg h2]
    · simp only [period_return]
      rw [if_neg h2]
  · intro hlen
    refine ⟨?_, ?_, ?_, ?_, ?_⟩
    · simp only [daily_change]
      rw [if_pos hlen]
    · intro hz
      simp only [daily_percent]
      rw [if_pos hlen, if_neg (by simpa using hz)]
    · intro hnz
      simp only [daily_percent]
      rw [if_pos hlen, if_pos hnz]
    · intro hz
      simp only [period_return]
      rw [if_pos hlen, if_neg (by simpa using hz)]
    · intro hnz
      simp only [period_return]
      rw [if_pos hlen, if_pos hnz]

/-- Witness for C5 amended: with aggregate values `[100, 110]` the daily
change evaluates through the theorem to `110 - 100`. -/
theorem claim5_witness :
    2 ≤ (total_values (get_portfolio_data [⟨"A", 1, 1⟩]
        (fun _ => [(1, 100), (2, 110)]))).length ∧
    daily_change (get_portfolio_data [⟨"A", 1, 1⟩] (fun _ => [(1, 100), (2, 110)]))
      = (total_values (get_portfolio_data [⟨"A", 1, 1⟩]
          (fun _ => [(1, 100), (2, 110)]))).getLastD 0
        - (total_values (get_portfolio_data [⟨"A", 1, 1⟩]
            (fun _ => [(1, 100), (2, 110)]))).getD
            ((total_values (get_portfolio_data [⟨"A", 1, 1⟩]
              (fun _ => [(1, 100), (2, 110)]))).length - 2) 0 := by
  have htv : total_values (get_portfolio_data [⟨"A", 1, 1⟩]
      (fun _ => [(1, 100), (2, 110)])) = [100, 110] := by
    simp [total_values, sorted_dates, daily_total, get_portfolio_data, history_rows,
      sortLe, insertLe, List.dedup]
  have hlen : 2 ≤ (total_values (get_portfolio_data [⟨"A", 1, 1⟩]
      (fun _ => [(1, 100), (2, 110)]))).length := by
    rw [htv]
    simp
  exact ⟨hlen, ((claim5 (get_portfolio_data [⟨"A", 1, 1⟩]
    (fun _ => [(1, 100), (2, 110)]))).2 hlen).1⟩

/-- The skip-empty guard is immaterial: an empty series yields no rows. -/
theorem history_block_eq (t : String) (qty : Int) (s : Series) :
    (if s.isEmpty then [] else history_rows t qty s) = history_rows t qty s := by
  cases s with
  | nil => rfl
  | cons dc s' => rfl

/-- Unfolding one position of `get_portfolio_data`. -/
theorem get_portfolio_data_cons (p : Pos) (db : Ledger) (fetch : String → Series) :
    get_portfolio_data (p :: db) fetch
      = history_rows p.ticker p.quantity (fetch p.ticker) ++ get_portfolio_data db fetch := by
  unfold get_portfolio_data
  rw [List.map_cons, List.flatten_cons]
  congr 1
  show (if (fetch p.ticker).isEmpty then []
      else history_rows p.ticker p.quantity (fetch p.ticker)) = _
  exact history_block_eq p.ticker p.quantity (fetch p.ticker)

/-- The per-date aggregate distributes over concatenation of frames. -/
theorem daily_total_append (l₁ l₂ : List Row) (d : Int) :
    daily_total (l₁ ++ l₂) d = daily_total l₁ d + daily_total l₂ d := by
  unfold daily_total
  rw [List.filter_append, List.map_append, List.sum_append]

/-- One row of the per-date aggregate. -/
theorem daily_total_cons (r : Row) (l : List Row) (d : Int) :
    daily_total (r :: l) d = (if r.date == d then r.totalValue else 0) + daily_total l d := by
  unfold daily_total
  by_cases h : r.date == d
  · rw [@List.filter_cons_of_pos Row (fun r => r.date == d) r l h,
      List.map_cons, List.sum_cons, if_pos h]
  · rw [@List.filter_cons_of_neg Row (fun r => r.date == d) r l (by simpa using h),
      if_neg h, zero_add]

/-- A series without the requested date contributes nothing on that date. -/
theorem daily_total_history_not_mem (t : String) (qty : Int) (d : Int) :
    ∀ s : Series, d ∉ s.map (fun dc => dc.1) →
      daily_total (history_rows t qty s) d = 0 := by
  intro s
  induction s with
  | nil => intro _; rfl
  | cons dc s' ih =>
      intro h
      rw [List.map_cons, List.mem_cons] at h
      push_neg at h
      rw [show history_rows t qty (dc :: s')
          = ⟨t, dc.1, dc.2 * (qty : Rat)⟩ :: history_rows t qty s' from rfl]
      rw [daily_total_cons]
      rw [if_neg (by simpa using fun hc : dc.1 = d => h.1 hc.symm), zero_add]
      exact ih h.2

/-- On a series with distinct dates, the per-date aggregate of its frame is
its close on that date times the quantity, or 0 when the date is absent. -/
theorem daily_total_history (t : String) (qty : Int) (d : Int) :
    ∀ s : Series, (s.map (fun dc => dc.1)).Nodup →
      daily_total (history_rows t qty s) d
        = (match s.find? (fun dc => dc.1 == d) with
           | some dc => dc.2 * (qty : Rat)
           | none => 0) := by
  intro s
  induction s with
  | nil => intro _; rfl
  | cons dc s' ih =>
      intro hnd
      rw [List.map_cons] at hnd
      rcases List.nodup_cons.mp hnd with ⟨hmem, hnd'⟩
      rw [show history_rows t qty (dc :: s')
          = ⟨t, dc.1, dc.2 * (qty : Rat)⟩ :: history_rows t qty s' from rfl]
      rw [daily_total_cons]
      by_cases hd : dc.1 = d
      · rw [List.find?_cons_of_pos _ (by simpa using hd), if_pos (by simpa using hd)]
        rw [daily_total_history_not_mem t qty d s' (hd ▸ hmem), add_zero]
      · rw [List.find?_cons_of_neg _ (by simpa using hd), if_neg (by simpa using hd), zero_add]
        exact ih hnd'

/-- Claim C4: for positions whose series carry strictly increasing dates, the
aggregate `daily_series` value at any date is the sum, over exactly those
positions whose series contains that date, of `quantity * close_on_date`
(absent positions contribute the `position_day_value` of 0). -/
theorem claim4 (db : Ledger) (fetch : String → Series)
    (hchron : ∀ p ∈ db, ((fetch p.ticker).map (fun dc => dc.1)).Pairwise (· < ·))
    (d : Int) :
    daily_total (get_portfolio_data db fetch) d
      = (db.map (fun p => position_day_value fetch p d)).sum := by
  induction db with
  | nil => rfl
  | cons p rest ih =>
      rw [get_portfolio_data_cons, daily_total_append, List.map_cons, List.sum_cons]
      congr 1
      · have hnd : ((fetch p.ticker).map (fun dc => dc.1)).Nodup :=
          (hchron p (List.mem_cons_self p rest)).imp (fun h => ne_of_lt h)
        rw [daily_total_history p.ticker p.quantity d (fetch p.ticker) hnd]
        rfl
      · exact ih (fun q hq => hchron q (List.mem_cons_of_mem _ hq))

/-- Witness for C4, which is also the claim's worked example: with
AAPL = [(d1,100)] at quantity 1 and MSFT = [(d1,50),(d2,55)] at quantity 2,
the aggregate is 200 on d1 and 110 on d2. -/
theorem claim4_witness :
    (∀ p ∈ ([⟨"AAPL", 1, 1⟩, ⟨"MSFT", 2, 1⟩] : Ledger),
      (((fun t => if t = "AAPL" then [((1 : Int), (100 : Rat))]
          else if t = "MSFT" then [(1, 50), (2, 55)] else []) p.ticker).map
        (fun dc => dc.1)).Pairwise (· < ·)) ∧
    daily_total (get_portfolio_data [⟨"AAPL", 1, 1⟩, ⟨"MSFT", 2, 1⟩]
        (fun t => if t = "AAPL" then [((1 : Int), (100 : Rat))]
          else if t = "MSFT" then [(1, 50), (2, 55)] else [])) 1
      = (([⟨"AAPL", 1, 1⟩, ⟨"MSFT", 2, 1⟩] : Ledger).map
          (fun p => position_day_value
            (fun t => if t = "AAPL" then [((1 : Int), (100 : Rat))]
              else if t = "MSFT" then [(1, 50), (2, 55)] else []) p 1)).sum ∧
    daily_total (get_portfolio_data [⟨"AAPL", 1, 1⟩, ⟨"MSFT", 2, 1⟩]
        (fun t => if t = "AAPL" then [((1 : Int), (100 : Rat))]
          else if t = "MSFT" then [(1, 50), (2, 55)] else [])) 1 = 200 ∧
    daily_total (get_portfolio_data [⟨"AAPL", 1, 1⟩, ⟨"MSFT", 2, 1⟩]
        (fun t => if t = "AAPL" then [((1 : Int), (100 : Rat))]
          else if t = "MSFT" then [(1, 50), (2, 55)] else [])) 2 = 110 := by
  have hch : ∀ p ∈ ([⟨"AAPL", 1, 1⟩, ⟨"MSFT", 2, 1⟩] : Ledger),
      (((fun t => if t = "AAPL" then [((1 : Int), (100 : Rat))]
          else if t = "MSFT" then [(1, 50), (2, 55)] else []) p.ticker).map
        (fun dc => dc.1)).Pairwise (· < ·) := by
    intro p hp
    rcases List.mem_cons.mp hp with h1 | hp
    · rw [h1]
      simp
    rcases List.mem_cons.mp hp with h2 | hp
    · rw [h2]
      simp
    · simp at hp
  refine ⟨hch, claim4 _ _ hch 1, ?_, ?_⟩
  · simp [daily_total, get_portfolio_data, history_rows]
    norm_num
  · simp [daily_total, get_portfolio_data, history_rows]
    norm_num

/-- Insertion sort leaves an already ≤-sorted list unchanged. -/
theorem sortLe_eq_self {α : Type} (le : α → α → Bool) :
    ∀ l : List α, l.Pairwise (fun x y => le x y = true) → sortLe le l = l := by
  intro l
  induction l with
  | nil => intro _; rfl
  | cons a as ih =>
      intro h
      rcases List.pairwise_cons.mp h with ⟨ha, has⟩
      show insertLe le a (sortLe le as) = a :: as
      rw [ih has]
      cases as with
      | nil => rfl
      | cons b bs =>
          show insertLe le a (b :: bs) = a :: b :: bs
          unfold insertLe
          rw [if_pos (ha b (List.mem_cons_self b bs))]

/-- All rows produced from one ticker's series belong to that ticker's group. -/
theorem ticker_rows_history_self (t : String) (qty : Int) (s : Series) :
    ticker_rows (history_rows t qty s) t = history_rows t qty s := by
  unfold ticker_rows
  rw [List.filter_eq_self.mpr]
  intro r hr
  rcases List.mem_map.mp hr with ⟨dc, _, hdc⟩
  rw [← hdc]
  simp

/-- A frame built from a chronologically ordered series is already
date-sorted, so `sort_values("Date")` leaves it unchanged. -/
theorem rows_by_date_history (t : String) (qty : Int) (s : Series)
    (hs : (s.map (fun dc => dc.1)).Pairwise (· < ·)) :
    rows_by_date (history_rows t qty s) = history_rows t qty s := by
  unfold rows_by_date
  apply sortLe_eq_self
  unfold history_rows
  rw [List.pairwise_map]
  rw [List.pairwise_map] at hs
  exact hs.imp (fun h => by simpa using le_of_lt h)

/-- `getLastD` commutes with `map` when the default is also mapped. -/
theorem getLastD_map_comp {α β : Type} (f : α → β) :
    ∀ (l : List α) (a : α), (l.map f).getLastD (f a) = f (l.getLastD a) := by
  intro l
  induction l with
  | nil => intro a; rfl
  | cons b bs ih =>
      intro a
      rw [List.map_cons, List.getLastD_cons, List.getLastD_cons]
      exact ih b

/-- The last TotalValue of a nonempty ticker frame is the series' last close
times the quantity. -/
theorem history_values_getLastD (t : String) (qty : Int) (dc : Int × Rat) (s' : Series) :
    ((history_rows t qty (dc :: s')).map (fun r => r.totalValue)).getLastD 0
      = ((dc :: s').getLastD (0, 0)).2 * (qty : Rat) := by
  have hm : (history_rows t qty (dc :: s')).map (fun r => r.totalValue)
      = (dc :: s').map (fun dc => dc.2 * (qty : Rat)) := by
    unfold history_rows
    rw [List.map_map]
    rfl
  rw [hm, List.map_cons, List.getLastD_cons, List.getLastD_cons]
  exact getLastD_map_comp (fun dc : Int × Rat => dc.2 * (qty : Rat)) s' dc

/-- The dashboard data of a single position is just that position's frame. -/
theorem get_portfolio_data_single (p : Pos) (fetch : String → Series) :
    get_portfolio_data [p] fetch = history_rows p.ticker p.quantity (fetch p.ticker) := by
  rw [get_portfolio_data_cons]
  show _ ++ [] = _
  rw [List.append_nil]

/-- Claim C8: when the second of two positions has an empty/unavailable series, the
report data is exactly the data of the surviving position alone — no error is
raised — and the surviving ticker's composition entry is its quantity times
its own last close, its per-ticker return being computed from its own series
as if the failed ticker were absent. -/
theorem claim8 (p₁ p₂ : Pos) (fetch : String → Series)
    (h₂ : fetch p₂.ticker = []) :
    get_portfolio_data [p₁, p₂] fetch = get_portfolio_data [p₁] fetch ∧
    (fetch p₁.ticker ≠ [] →
      composition_last (get_portfolio_data [p₁, p₂] fetch) p₁.ticker
        = ((fetch p₁.ticker).getLastD (0, 0)).2 * (p₁.quantity : Rat)) ∧
    ticker_pct (get_portfolio_data [p₁, p₂] fetch) p₁.ticker
      = ticker_pct (get_portfolio_data [p₁] fetch) p₁.ticker := by
  have hdata : get_portfolio_data [p₁, p₂] fetch = get_portfolio_data [p₁] fetch := by
    rw [get_portfolio_data_cons, get_portfolio_data_single, h₂]
    rw [show history_rows p₂.ticker p₂.quantity [] = [] from rfl, List.append_nil]
    rw [get_portfolio_data_single]
  refine ⟨hdata, ?_, by rw [hdata]⟩
  intro h1
  rw [hdata, get_portfolio_data_single]
  unfold composition_last
  rw [ticker_rows_history_self]
  cases hs : fetch p₁.ticker with
  | nil => exact absurd hs h1
  | cons dc s' => exact history_values_getLastD p₁.ticker p₁.quantity dc s'

/-- Witness for C8: AAPL survives while MSFT returns no data; the combined
data equals the AAPL-only data and AAPL's composition entry is 2 * 55 = 110. -/
theorem claim8_witness :
    ((fun t => if t = "AAPL" then [((1 : Int), (50 : Rat)), (2, 55)] else [])
      (⟨"MSFT", 3, 1⟩ : Pos).ticker) = [] ∧
    get_portfolio_data [⟨"AAPL", 2, 1⟩, ⟨"MSFT", 3, 1⟩]
        (fun t => if t = "AAPL" then [((1 : Int), (50 : Rat)), (2, 55)] else [])
      = get_portfolio_data [⟨"AAPL", 2, 1⟩]
        (fun t => if t = "AAPL" then [((1 : Int), (50 : Rat)), (2, 55)] else []) ∧
    composition_last (get_portfolio_data [⟨"AAPL", 2, 1⟩, ⟨"MSFT", 3, 1⟩]
        (fun t => if t = "AAPL" then [((1 : Int), (50 : Rat)), (2, 55)] else []))
        "AAPL"
      = (((fun t => if t = "AAPL" then [((1 : Int), (50 : Rat)), (2, 55)] else [])
          "AAPL").getLastD (0, 0)).2 * ((2 : Int) : Rat) := by
  have h₂ : ((fun t => if t = "AAPL" then [((1 : Int), (50 : Rat)), (2, 55)] else [])
      (⟨"MSFT", 3, 1⟩ : Pos).ticker) = [] := by
    simp
  have h := claim8 ⟨"AAPL", 2, 1⟩ ⟨"MSFT", 3, 1⟩
    (fun t => if t = "AAPL" then [((1 : Int), (50 : Rat)), (2, 55)] else []) h₂
  exact ⟨h₂, h.1, h.2.1 (by simp)⟩

/-- Inserting into a list is a permutation of consing. -/
theorem insertLe_perm {α : Type} (le : α → α → Bool) (a : α) :
    ∀ l : List α, (insertLe le a l).Perm (a :: l) := by
  intro l
  induction l with
  | nil => exact List.Perm.refl _
  | cons b bs ih =>
      unfold insertLe
      by_cases h : le a b
      · rw [if_pos h]
      · rw [if_neg h]
        exact (ih.cons b).trans (List.Perm.swap a b bs)

/-- Insertion sort permutes its input. -/
theorem sortLe_perm {α : Type} (le : α → α → Bool) :
    ∀ l : List α, (sortLe le l).Perm l := by
  intro l
  induction l with
  | nil => exact List.Perm.refl _
  | cons a as ih => exact (insertLe_perm le a (sortLe le as)).trans (ih.cons a)

/-- Inserting into a ≤-sorted list keeps it sorted, for a total transitive
boolean comparison. -/
theorem insertLe_pairwise {α : Type} (le : α → α → Bool)
    (htot : ∀ x y, le x y = false → le y x = true)
    (htr : ∀ x y z, le x y = true → le y z = true → le x z = true) (a : α) :
    ∀ l : List α, l.Pairwise (fun x y => le x y = true) →
      (insertLe le a l).Pairwise (fun x y => le x y = true) := by
  intro l
  induction l with
  | nil => intro _; simp [insertLe]
  | cons b bs ih =>
      intro hl
      rcases List.pairwise_cons.mp hl with ⟨hb, hbs⟩
      unfold insertLe
      by_cases h : le a b
      · rw [if_pos h]
        refine List.pairwise_cons.mpr ⟨?_, hl⟩
        intro x hx
        rcases List.mem_cons.mp hx with rfl | hx
        · exact h
        · exact htr a b x h (hb x hx)
      · rw [if_neg h]
        refine List.pairwise_cons.mpr ⟨?_, ih hbs⟩
        intro x hx
        have hx' := (insertLe_perm le a bs).mem_iff.mp hx
        rcases List.mem_cons.mp hx' with hxa | hx'
        · rw [hxa]
          exact htot a b (by simpa using h)
        · exact hb x hx'

/-- Insertion sort sorts, for a total transitive boolean comparison. -/
theorem sortLe_pairwise {α : Type} (le : α → α → Bool)
    (htot : ∀ x y, le x y = false → le y x = true)
    (htr : ∀ x y z, le x y = true → le y z = true → le x z = true) :
    ∀ l : List α, (sortLe le l).Pairwise (fun x y => le x y = true) := by
  intro l
  induction l with
  | nil => exact List.Pairwise.nil
  | cons a as ih => exact insertLe_pairwise le htot htr a (sortLe le as) ih

/-- Unfolding the head comparison of the codepoint order. -/
theorem codesLe_cons_iff (a b : Nat) (as bs : List Nat) :
    codesLe (a :: as) (b :: bs) = true ↔ a < b ∨ (a = b ∧ codesLe as bs = true) := by
  simp only [codesLe]
  by_cases h1 : a < b
  · simp [h1]
  · by_cases h2 : b < a
    · have hne : a ≠ b := by omega
      simp [h1, h2, hne]
    · have heq : a = b := by omega
      simp [h1, h2, heq]

/-- The codepoint order is total. -/
theorem codesLe_total : ∀ x y : List Nat, codesLe x y = true ∨ codesLe y x = true
  | [], _ => Or.inl rfl
  | _ :: _, [] => Or.inr rfl
  | a :: as, b :: bs => by
      rcases Nat.lt_trichotomy a b with h | h | h
      · exact Or.inl ((codesLe_cons_iff a b as bs).mpr (Or.inl h))
      · rcases codesLe_total as bs with ih | ih
        · exact Or.inl ((codesLe_cons_iff a b as bs).mpr (Or.inr ⟨h, ih⟩))
        · exact Or.inr ((codesLe_cons_iff b a bs as).mpr (Or.inr ⟨h.symm, ih⟩))
      · exact Or.inr ((codesLe_cons_iff b a bs as).mpr (Or.inl h))

/-- The codepoint order is transitive. -/
theorem codesLe_trans : ∀ x y z : List Nat,
    codesLe x y = true → codesLe y z = true → codesLe x z = true
  | [], _, _, _, _ => rfl
  | _ :: _, [], _, h1, _ => by simp [codesLe] at h1
  | _ :: _, _ :: _, [], _, h2 => by simp [codesLe] at h2
  | a :: as, b :: bs, c :: cs, h1, h2 => by
      rw [codesLe_cons_iff] at h1 h2 ⊢
      rcases h1 with h1 | ⟨h1e, h1r⟩
      · rcases h2 with h2 | ⟨h2e, h2r⟩
        · exact Or.inl (by omega)
        · exact Or.inl (by omega)
      · rcases h2 with h2 | ⟨h2e, h2r⟩
        · exact Or.inl (by omega)
        · exact Or.inr ⟨by omega, codesLe_trans as bs cs h1r h2r⟩

/-- The Python string order is total. -/
theorem strLe_of_not (a b : String) (h : strLe a b = false) : strLe b a = true := by
  unfold strLe at h ⊢
  rcases codesLe_total (a.data.map Char.toNat) (b.data.map Char.toNat) with hc | hc
  · rw [hc] at h
    cases h
  · exact hc

/-- The Python string order is transitive. -/
theorem strLe_trans (a b c : String) (h1 : strLe a b = true) (h2 : strLe b c = true) :
    strLe a c = true :=
  codesLe_trans _ _ _ h1 h2

/-- The grouped ticker keys are strictly ascending (sorted and duplicate-free). -/
theorem tickers_sorted_pairwise (data : List Row) :
    (tickers_sorted data).Pairwise strLt := by
  have hperm := sortLe_perm strLe ((data.map (fun r => r.ticker)).dedup)
  have hnd : (tickers_sorted data).Nodup :=
    hperm.nodup_iff.mpr (List.nodup_dedup _)
  have hle : (tickers_sorted data).Pairwise (fun x y => strLe x y = true) :=
    sortLe_pairwise strLe strLe_of_not strLe_trans _
  exact hle.and hnd

/-- Specification of Python `max(..., key=...)` as a fold: the result pairs a
scanned ticker with its key, attains the maximum, and on ties the earliest
element of the iteration wins. -/
theorem max_fold_spec (f : String → Rat) :
    ∀ (L : List String) (init : String × Rat),
      init.2 = f init.1 → (∀ u ∈ L, strLt init.1 u) → L.Pairwise strLt →
      (max_fold f init L).2 = f (max_fold f init L).1 ∧
      ((max_fold f init L).1 = init.1 ∨ (max_fold f init L).1 ∈ L) ∧
      init.2 ≤ (max_fold f init L).2 ∧
      (∀ u ∈ L, f u ≤ (max_fold f init L).2) ∧
      (∀ u ∈ L, f u = (max_fold f init L).2 →
        (max_fold f init L).1 = u ∨ strLt (max_fold f init L).1 u) ∧
      (f init.1 = (max_fold f init L).2 → (max_fold f init L).1 = init.1) := by
  intro L
  induction L with
  | nil =>
      intro init hinit _ _
      refine ⟨hinit, Or.inl rfl, le_refl _, ?_, ?_, ?_⟩
      · intro u hu
        exact absurd hu (List.not_mem_nil u)
      · intro u hu
        exact absurd hu (List.not_mem_nil u)
      · intro _
        rfl
  | cons u us ih =>
      intro init hinit hlt hpw
      rcases List.pairwise_cons.mp hpw with ⟨hu_all, hpw'⟩
      have hu0 : strLt init.1 u := hlt u (List.mem_cons_self u us)
      by_cases hc : init.2 < f u
      · have hstep : max_fold f init (u :: us) = max_fold f (u, f u) us := by
          simp only [max_fold, List.foldl_cons]
          rw [if_pos hc]
        rcases ih (u, f u) rfl hu_all hpw' with ⟨ih1, ih2, ih3, ih4, ih5, ih6⟩
        rw [hstep]
        refine ⟨ih1, ?_, ?_, ?_, ?_, ?_⟩
        · rcases ih2 with h | h
          · exact Or.inr (by rw [h]; exact List.mem_cons_self u us)
          · exact Or.inr (List.mem_cons_of_mem _ h)
        · exact le_of_lt (lt_of_lt_of_le hc ih3)
        · intro v hv
          rcases List.mem_cons.mp hv with hvu | hv
          · rw [hvu]
            exact ih3
          · exact ih4 v hv
        · intro v hv hveq
          rcases List.mem_cons.mp hv with hvu | hv
          · rw [hvu] at hveq ⊢
            exact Or.inl (ih6 hveq)
          · exact ih5 v hv hveq
        · intro heq
          exfalso
          have hlt2 : init.2 < (max_fold f (u, f u) us).2 := lt_of_lt_of_le hc ih3
          rw [← hinit] at heq
          rw [heq] at hlt2
          exact lt_irrefl _ hlt2
      · have hc' : f u ≤ init.2 := le_of_not_lt hc
        have hstep : max_fold f init (u :: us) = max_fold f init us := by
          simp only [max_fold, List.foldl_cons]
          rw [if_neg hc]
        rcases ih init hinit (fun v hv => hlt v (List.mem_cons_of_mem _ hv)) hpw' with
          ⟨ih1, ih2, ih3, ih4, ih5, ih6⟩
        rw [hstep]
        refine ⟨ih1, ?_, ih3, ?_, ?_, ih6⟩
        · rcases ih2 with h | h
          · exact Or.inl h
          · exact Or.inr (List.mem_cons_of_mem _ h)
        · intro v hv
          rcases List.mem_cons.mp hv with hvu | hv
          · rw [hvu]
            exact le_trans hc' ih3
          · exact ih4 v hv
        · intro v hv hveq
          rcases List.mem_cons.mp hv with hvu | hv
          · have he : init.2 = (max_fold f init us).2 := by
              apply le_antisymm ih3
              rw [← hveq, hvu]
              exact hc'
            have hr1 : (max_fold f init us).1 = init.1 := by
              apply ih6
              rw [← hinit, he]
            rw [hr1, hvu]
            exact Or.inr hu0
          · exact ih5 v hv hveq

/-- Specification of Python `min(..., key=...)` as a fold, symmetric to the
max case. -/
theorem min_fold_spec (f : String → Rat) :
    ∀ (L : List String) (init : String × Rat),
      init.2 = f init.1 → (∀ u ∈ L, strLt init.1 u) → L.Pairwise strLt →
      (min_fold f init L).2 = f (min_fold f init L).1 ∧
      ((min_fold f init L).1 = init.1 ∨ (min_fold f init L).1 ∈ L) ∧
      (min_fold f init L).2 ≤ init.2 ∧
      (∀ u ∈ L, (min_fold f init L).2 ≤ f u) ∧
      (∀ u ∈ L, f u = (min_fold f init L).2 →
        (min_fold f init L).1 = u ∨ strLt (min_fold f init L).1 u) ∧
      (f init.1 = (min_fold f init L).2 → (min_fold f init L).1 = init.1) := by
  intro L
  induction L with
  | nil =>
      intro init hinit _ _
      refine ⟨hinit, Or.inl rfl, le_refl _, ?_, ?_, ?_⟩
      · intro u hu
        exact absurd hu (List.not_mem_nil u)
      · intro u hu
        exact absurd hu (List.not_mem_nil u)
      · intro _
        rfl
  | cons u us ih =>
      intro init hinit hlt hpw
      rcases List.pairwise_cons.mp hpw with ⟨hu_all, hpw'⟩
      have hu0 : strLt init.1 u := hlt u (List.mem_cons_self u us)
      by_cases hc : f u < init.2
      · have hstep : min_fold f init (u :: us) = min_fold f (u, f u) us := by
          simp only [min_fold, List.foldl_cons]
          rw [if_pos hc]
        rcases ih (u, f u) rfl hu_all hpw' with ⟨ih1, ih2, ih3, ih4, ih5, ih6⟩
        rw [hstep]
        refine ⟨ih1, ?_, ?_, ?_, ?_, ?_⟩
        · rcases ih2 with h | h
          · exact Or.inr (by rw [h]; exact List.mem_cons_self u us)
          · exact Or.inr (List.mem_cons_of_mem _ h)
        · exact le_of_lt (lt_of_le_of_lt ih3 hc)
        · intro v hv
          rcases List.mem_cons.mp hv with hvu | hv
          · rw [hvu]
            exact ih3
          · exact ih4 v hv
        · intro v hv hveq
          rcases List.mem_cons.mp hv with hvu | hv
          · rw [hvu] at hveq ⊢
            exact Or.inl (ih6 hveq)
          · exact ih5 v hv hveq
        · intro heq
          exfalso
          have hlt2 : (min_fold f (u, f u) us).2 < init.2 := lt_of_le_of_lt ih3 hc
          rw [← hinit] at heq
          rw [heq] at hlt2
          exact lt_irrefl _ hlt2
      · have hc' : init.2 ≤ f u := le_of_not_lt hc
        have hstep : min_fold f init (u :: us) = min_fold f init us := by
          simp only [min_fold, List.foldl_cons]
          rw [if_neg hc]
        rcases ih init hinit (fun v hv => hlt v (List.mem_cons_of_mem _ hv)) hpw' with
          ⟨ih1, ih2, ih3, ih4, ih5, ih6⟩
        rw [hstep]
        refine ⟨ih1, ?_, ih3, ?_, ?_, ih6⟩
        · rcases ih2 with h | h
          · exact Or.inl h
          · exact Or.inr (List.mem_cons_of_mem _ h)
        · intro v hv
          rcases List.mem_cons.mp hv with hvu | hv
          · rw [hvu]
            exact le_trans ih3 hc'
          · exact ih4 v hv
        · intro v hv hveq
          rcases List.mem_cons.mp hv with hvu | hv
          · have he : init.2 = (min_fold f init us).2 := by
              apply le_antisymm
              · rw [← hveq, hvu]
                exact hc'
              · exact ih3
            have hr1 : (min_fold f init us).1 = init.1 := by
              apply ih6
              rw [← hinit, he]
            rw [hr1, hvu]
            exact Or.inr hu0
          · exact ih5 v hv hveq

/-- Claim C7 amended: the sentinel pair is produced exactly when no ticker has
data; otherwise top (resp. flop) performer attains the maximum (resp.
minimum) per-ticker return over the grouped tickers, and a tie is won by the
first ticker in the iteration order of the groups — which is ascending
string order, pandas' sorted groupby keys, not the position order. -/
theorem claim7 (data : List Row) :
    (tickers_sorted data = [] →
      top_performer data = ("n/a", 0) ∧ flop_performer data = ("n/a", 0)) ∧
    (tickers_sorted data ≠ [] →
      ((top_performer data).2 = ticker_pct data (top_performer data).1 ∧
       (top_performer data).1 ∈ tickers_sorted data ∧
       (∀ u ∈ tickers_sorted data, ticker_pct data u ≤ (top_performer data).2) ∧
       (∀ u ∈ tickers_sorted data, ticker_pct data u = (top_performer data).2 →
          (top_performer data).1 = u ∨ strLt (top_performer data).1 u)) ∧
      ((flop_performer data).2 = ticker_pct data (flop_performer data).1 ∧
       (flop_performer data).1 ∈ tickers_sorted data ∧
       (∀ u ∈ tickers_sorted data, (flop_performer data).2 ≤ ticker_pct data u) ∧
       (∀ u ∈ tickers_sorted data, ticker_pct data u = (flop_performer data).2 →
          (flop_performer data).1 = u ∨ strLt (flop_performer data).1 u))) := by
  constructor
  · intro hts
    constructor
    · simp only [top_performer, hts]
    · simp only [flop_performer, hts]
  · intro hne
    cases hts : tickers_sorted data with
    | nil => exact absurd hts hne
    | cons t ts =>
        have hpw := tickers_sorted_pairwise data
        rw [hts] at hpw
        rcases List.pairwise_cons.mp hpw with ⟨h_all, hpw'⟩
        have htop : top_performer data
            = max_fold (ticker_pct data) (t, ticker_pct data t) ts := by
          simp only [top_performer, hts]
        have hflop : flop_performer data
            = min_fold (ticker_pct data) (t, ticker_pct data t) ts := by
          simp only [flop_performer, hts]
        rcases max_fold_spec (ticker_pct data) ts (t, ticker_pct data t) rfl h_all hpw' with
          ⟨m1, m2, m3, m4, m5, m6⟩
        rcases min_fold_spec (ticker_pct data) ts (t, ticker_pct data t) rfl h_all hpw' with
          ⟨n1, n2, n3, n4, n5, n6⟩
        rw [htop, hflop]
        refine ⟨⟨m1, ?_, ?_, ?_⟩, n1, ?_, ?_, ?_⟩
        · rcases m2 with h | h
          · rw [h]
            exact List.mem_cons_self t ts
          · exact List.mem_cons_of_mem _ h
        · intro u hu
          rcases List.mem_cons.mp hu with hut | hu
          · rw [hut]
            exact m3
          · exact m4 u hu
        · intro u hu hueq
          rcases List.mem_cons.mp hu with hut | hu
          · rw [hut] at hueq ⊢
            exact Or.inl (m6 hueq)
          · exact m5 u hu hueq
        · rcases n2 with h | h
          · rw [h]
            exact List.mem_cons_self t ts
          · exact List.mem_cons_of_mem _ h
        · intro u hu
          rcases List.mem_cons.mp hu with hut | hu
          · rw [hut]
            exact n3
          · exact n4 u hu
        · intro u hu hueq
          rcases List.mem_cons.mp hu with hut | hu
          · rw [hut] at hueq ⊢
            exact Or.inl (n6 hueq)
          · exact n5 u hu hueq

/-- Claim C7 counterexample to the tie-break direction of the claim: positions are
iterated as [B, A], both tie at return 0, yet the top performer is A — the
alphabetically first group key — not B, the first ticker in position order. -/
theorem claim7_counterexample :
    ticker_pct (get_portfolio_data [⟨"B", 1, 1⟩, ⟨"A", 1, 1⟩] (fun _ => [(1, 10)])) "A"
      = ticker_pct (get_portfolio_data [⟨"B", 1, 1⟩, ⟨"A", 1, 1⟩] (fun _ => [(1, 10)])) "B" ∧
    top_performer (get_portfolio_data [⟨"B", 1, 1⟩, ⟨"A", 1, 1⟩] (fun _ => [(1, 10)]))
      = ("A", 0) ∧
    ("A" : String) ≠ "B" := by
  have hdata : get_portfolio_data [⟨"B", 1, 1⟩, ⟨"A", 1, 1⟩] (fun _ => [(1, 10)])
      = [⟨"B", 1, 10⟩, ⟨"A", 1, 10⟩] := by
    simp [get_portfolio_data, history_rows]
  have hA : ticker_pct [(⟨"B", 1, 10⟩ : Row), ⟨"A", 1, 10⟩] "A" = 0 := by
    norm_num [ticker_pct, ticker_rows, rows_by_date, sortLe, insertLe]
  have hB : ticker_pct [(⟨"B", 1, 10⟩ : Row), ⟨"A", 1, 10⟩] "B" = 0 := by
    norm_num [ticker_pct, ticker_rows, rows_by_date, sortLe, insertLe]
  have hts : tickers_sorted [(⟨"B", 1, 10⟩ : Row), ⟨"A", 1, 10⟩] = ["A", "B"] := by
    simp [tickers_sorted, sortLe, insertLe, strLe, codesLe, List.dedup]
  refine ⟨?_, ?_, by simp⟩
  · rw [hdata, hA, hB]
  · rw [hdata]
    simp only [top_performer, hts]
    simp only [max_fold, List.foldl_cons, List.foldl_nil]
    rw [hA, hB]
    norm_num

/-- Witness for C7 amended at the concrete two-ticker frame: the grouped
tickers are nonempty and the top performer's value is its own ticker_pct. -/
theorem claim7_witness :
    tickers_sorted [(⟨"B", 1, 10⟩ : Row), ⟨"A", 1, 10⟩] ≠ [] ∧
    (top_performer [(⟨"B", 1, 10⟩ : Row), ⟨"A", 1, 10⟩]).2
      = ticker_pct [(⟨"B", 1, 10⟩ : Row), ⟨"A", 1, 10⟩]
          (top_performer [(⟨"B", 1, 10⟩ : Row), ⟨"A", 1, 10⟩]).1 ∧
    (top_performer [(⟨"B", 1, 10⟩ : Row), ⟨"A", 1, 10⟩]).1
      ∈ tickers_sorted [(⟨"B", 1, 10⟩ : Row), ⟨"A", 1, 10⟩] := by
  have hne : tickers_sorted [(⟨"B", 1, 10⟩ : Row), ⟨"A", 1, 10⟩] ≠ [] := by
    simp [tickers_sorted, sortLe, insertLe, strLe, codesLe, List.dedup]
  have h := (claim7 [(⟨"B", 1, 10⟩ : Row), ⟨"A", 1, 10⟩]).2 hne
  exact ⟨hne, h.1.1, h.1.2.1⟩

end Portfolio
